import Mathlib

/-!
Verification of the declarative struct-update rewrite rule `assign`.

The rule rewrites an invocation of the form
  assign(BASE, brace-list of CLAUSEs)
into a block that binds a fresh mutable local to BASE, emits one field
assignment per clause in source order (a full clause `NAME : VALUE` becomes
`local.NAME = VALUE`, a bare clause `NAME` becomes `local.NAME = NAME` where
the right-hand `NAME` is looked up in the caller's lexical scope), and
finally yields the local.  The rule has two internal single-clause helper
rules, one for each clause form, which emit one assignment statement each.

Shallow embedding: a record value is a total function from field names to
values; a value expression reads the caller's lexical scope and threads an
explicit effect state; the expansion is modelled by explicit state passing
that mirrors the emitted statements one for one.
-/

namespace Assign

/-- The caller's lexical scope: identifiers (which share the namespace of
field names) mapped to values. -/
abbrev Scope (F V : Type) := F → V

/-- A record value: a total assignment of values to field names. -/
abbrev Record (F V : Type) := F → V

/-- A value expression of a clause: reads the caller scope and threads the
effect state, producing one value. -/
abbrev Expr (σ F V : Type) := Scope F V → σ → V × σ

/-- The base expression of an invocation: reads the caller scope and threads
the effect state, producing one record. -/
abbrev BaseExpr (σ F V : Type) := Scope F V → σ → Record F V × σ

/-- One field clause of an invocation: either a field name paired with a
value expression, or a bare field name. -/
inductive Clause (σ F V : Type) where
  | full (field : F) (value : Expr σ F V)
  | shorthand (field : F)

/-- The field name targeted by a clause. -/
def clauseField {σ F V : Type} : Clause σ F V → F
  | .full f _ => f
  | .shorthand f => f

/-- The value a clause assigns, as an effectful computation: a full clause
runs its value expression, a bare clause reads the variable of the same name
from the caller scope (an effect-free read). -/
def clauseEval {σ F V : Type} (env : Scope F V) : Clause σ F V → σ → V × σ
  | .full _ e, s => e env s
  | .shorthand f, s => (env f, s)

/-- The statement emitted by the full-clause helper rule: evaluate the value
expression, then overwrite the named field of the local. -/
def assignStmtFull {σ F V : Type} [DecidableEq F] (env : Scope F V)
    (item : Record F V) (f : F) (e : Expr σ F V) (s : σ) : Record F V × σ :=
  let p := e env s
  (Function.update item f p.1, p.2)

/-- The statement emitted by the bare-clause helper rule: overwrite the named
field of the local with the caller-scope variable of the same name. -/
def assignStmtShorthand {σ F V : Type} [DecidableEq F] (env : Scope F V)
    (item : Record F V) (f : F) (s : σ) : Record F V × σ :=
  (Function.update item f (env f), s)

/-- One emitted assignment statement, dispatching on the clause form exactly
as the two helper rules do. -/
def applyClause {σ F V : Type} [DecidableEq F] (env : Scope F V)
    (c : Clause σ F V) (item : Record F V) (s : σ) : Record F V × σ :=
  match c with
  | .full f e => assignStmtFull env item f e s
  | .shorthand f => assignStmtShorthand env item f s

/-- One step of the emitted statement sequence, acting on the pair of the
current local value and the effect state. -/
def stepClause {σ F V : Type} [DecidableEq F] (env : Scope F V)
    (q : Record F V × σ) (c : Clause σ F V) : Record F V × σ :=
  applyClause env c q.1 q.2

/-- The expansion of the main rule: evaluate the base expression once, bind
its value to the fresh local, run the emitted assignments in source order,
and yield the local. -/
def assignExpand {σ F V : Type} [DecidableEq F] (env : Scope F V)
    (base : BaseExpr σ F V) (cs : List (Clause σ F V)) (s : σ) :
    Record F V × σ :=
  List.foldl (stepClause env) (base env s) cs

/-- An invocation, already split by the shape the token stream presents:
the main user-facing shape carries a base expression and the clause list;
the two helper shapes carry a single clause's pieces and refer to a named
local (modelled by the value it currently holds, supplied to the emitted
statement). -/
inductive Invocation (σ F V : Type) where
  | main (base : BaseExpr σ F V) (clauses : List (Clause σ F V))
  | helperFull (field : F) (value : Expr σ F V)
  | helperShorthand (field : F)

/-- A produced expansion: either a value-producing expression (main shape) or
a single assignment statement (helper shapes), the latter a function of the
current value of the named local. -/
inductive Expansion (σ F V : Type) where
  | expr (run : Scope F V → σ → Record F V × σ)
  | stmt (run : Scope F V → Record F V → σ → Record F V × σ)

/-- The rewrite rule itself: match the invocation against the accepted
shapes and produce the expansion, or fail with a shape mismatch (`none`).
The main shape requires at least one clause (the one-or-more repetition in
the matcher); the helper shapes always match their rule. -/
def expand {σ F V : Type} [DecidableEq F] :
    Invocation σ F V → Option (Expansion σ F V)
  | .main _ [] => none
  | .main base (c :: cs) =>
      some (.expr fun env s => assignExpand env base (c :: cs) s)
  | .helperFull f e =>
      some (.stmt fun env item s => assignStmtFull env item f e s)
  | .helperShorthand f =>
      some (.stmt fun env item s => assignStmtShorthand env item f s)

/-- A value expression that is a bare variable reference, resolved in the
caller's lexical scope. -/
def varRef {σ F V : Type} (f : F) : Expr σ F V := fun env s => (env f, s)

/-- A value expression that is a literal constant. -/
def constExpr {σ F V : Type} (x : V) : Expr σ F V := fun _ s => (x, s)

/-- A base expression that is a pure value. -/
def pureBase {σ F V : Type} (r : Record F V) : BaseExpr σ F V :=
  fun _ s => (r, s)

/-- Sequential functional update of a record by a list of field-value
pairs, left to right. -/
def assignList {F V : Type} [DecidableEq F] (v : Record F V) :
    List (F × V) → Record F V
  | [] => v
  | p :: ps => assignList (Function.update v p.1 p.2) ps

/-- Evaluate the clauses of a list in order, threading the effect state, and
collect the field-value pairs they assign. -/
def evalClauses {σ F V : Type} (env : Scope F V) :
    List (Clause σ F V) → σ → List (F × V) × σ
  | [], s => ([], s)
  | c :: cs, s =>
    let p := clauseEval env c s
    let q := evalClauses env cs p.2
    ((clauseField c, p.1) :: q.1, q.2)

/-- An effect event, for instrumenting evaluations: one evaluation of the
base expression, or one evaluation of the value expression of the clause at
a given position. -/
inductive Event where
  | base
  | val (i : Nat)

/-- A base expression instrumented to record its own evaluation. -/
def instrBase {F V : Type} (r : Record F V) : BaseExpr (List Event) F V :=
  fun _ s => (r, s ++ [Event.base])

/-- Full clauses for the given field-value pairs, each instrumented to record
the evaluation of its value expression, positions numbered from `k`. -/
def instrClauses {F V : Type} : List (F × V) → Nat → List (Clause (List Event) F V)
  | [], _ => []
  | p :: ps, k =>
    Clause.full p.1 (fun _ s => (p.2, s ++ [Event.val k])) :: instrClauses ps (k + 1)

/-- A clause is pure when its value does not depend on the effect state and
its evaluation leaves the state unchanged (for example a literal value or a
bare shorthand clause). -/
def PureClause {σ F V : Type} (c : Clause σ F V) : Prop :=
  ∀ env s1 s2, clauseEval env c s1 = ((clauseEval env c s2).1, s1)

/-- The field names of the record type used in the tests of the source:
`a : u32`, `b : Option f32`, `c : Option u64`. -/
inductive Field where
  | a
  | b
  | c
  deriving DecidableEq

/-- The values those fields can hold: a 32-bit unsigned integer, an optional
32-bit float (kept abstract as its bit pattern), an optional 64-bit unsigned
integer. -/
inductive SVal where
  | u32 (n : Nat)
  | optF32 (x : Option Nat)
  | optU64 (x : Option Nat)
  deriving DecidableEq

/-- The default value of the test record: `a = 0, b = None, c = None`. -/
def someStructDefault : Record Field SVal := fun f =>
  match f with
  | .a => .u32 0
  | .b => .optF32 none
  | .c => .optU64 none

/-- The clause list of the basic test: `a : 5, b : None`. -/
def exClauses : List (Clause Unit Field SVal) :=
  [Clause.full Field.a (constExpr (SVal.u32 5)),
   Clause.full Field.b (constExpr (SVal.optF32 none))]

/-- The base expression of the basic test. -/
def exBase : BaseExpr Unit Field SVal := pureBase someStructDefault

/-- A caller scope for the concrete examples (its contents are irrelevant to
the full-clause examples). -/
def exEnv : Scope Field SVal := someStructDefault

/-- The clause `a : 5` of the concrete examples. -/
def clause5 : Clause Unit Field SVal := Clause.full Field.a (constExpr (SVal.u32 5))

/-- The clause `a : 7`, for the duplicate-field example. -/
def clause7 : Clause Unit Field SVal := Clause.full Field.a (constExpr (SVal.u32 7))

/-- The clause list of the basic test in reverse order. -/
def exClausesRev : List (Clause Unit Field SVal) :=
  [Clause.full Field.b (constExpr (SVal.optF32 none)),
   Clause.full Field.a (constExpr (SVal.u32 5))]

/-- A caller scope in which the variable `a` holds `5`. -/
def env5 : Scope Field Nat := fun f =>
  match f with
  | .a => 5
  | _ => 0

/-- A pure all-zero base record over natural-number fields. -/
def base5 : BaseExpr Unit Field Nat := pureBase fun _ => 0

/-- A base expression with an observable side effect: it bumps a construction
counter by one each time it is evaluated. -/
def countingBase : BaseExpr Nat Field SVal := fun _ s => (someStructDefault, s + 1)

/-- A one-clause list whose value expression leaves the construction counter
alone. -/
def countClauses : List (Clause Nat Field SVal) :=
  [Clause.full Field.a (constExpr (SVal.u32 5))]

/-- A side-effecting value expression: it bumps a counter and yields the new
count. -/
def nextExpr : Expr Nat Field Nat := fun _ s => (s + 1, s + 1)

/-- An all-zero caller scope over natural-number fields. -/
def natScope : Scope Field Nat := fun _ => 0

/-- A pure all-zero base expression threading a counter state. -/
def natBase : BaseExpr Nat Field Nat := pureBase fun _ => 0

/-- Two clauses on distinct fields whose value expressions share a counter. -/
def effClauses1 : List (Clause Nat Field Nat) :=
  [Clause.full Field.a nextExpr, Clause.full Field.b nextExpr]

/-- The same two clauses in the opposite order. -/
def effClauses2 : List (Clause Nat Field Nat) :=
  [Clause.full Field.b nextExpr, Clause.full Field.a nextExpr]

/-- A caller scope with a variable named `item` holding `42`, to probe
collisions with the expansion's internal local. -/
def itemScope : Scope String Nat := fun n => if n = "item" then 42 else 0

/-- A pure all-zero base record over string-named fields. -/
def strBase : BaseExpr Unit String Nat := pureBase fun _ => 0

section Lemmas

variable {σ F V : Type} [DecidableEq F]

theorem applyClause_eq (env : Scope F V) (c : Clause σ F V)
    (item : Record F V) (s : σ) :
    applyClause env c item s =
      (Function.update item (clauseField c) (clauseEval env c s).1,
       (clauseEval env c s).2) := by
  cases c <;> rfl

theorem foldl_stepClause_fst (env : Scope F V) (cs : List (Clause σ F V))
    (p : Record F V × σ) (f : F) (h : f ∉ cs.map clauseField) :
    (List.foldl (stepClause env) p cs).1 f = p.1 f := by
  induction cs generalizing p with
  | nil => rfl
  | cons c cs ih =>
    simp only [List.map_cons, List.mem_cons, not_or] at h
    rw [List.foldl_cons, ih _ h.2]
    show (applyClause env c p.1 p.2).1 f = p.1 f
    rw [applyClause_eq]
    exact Function.update_noteq h.1 _ _

theorem foldl_stepClause_snd (env : Scope F V) (cs : List (Clause σ F V))
    (p : Record F V × σ)
    (h : ∀ c ∈ cs, ∀ s, (clauseEval env c s).2 = s) :
    (List.foldl (stepClause env) p cs).2 = p.2 := by
  induction cs generalizing p with
  | nil => rfl
  | cons c cs ih =>
    rw [List.foldl_cons, ih _ fun d hd s => h d (List.mem_cons_of_mem _ hd) s]
    show (applyClause env c p.1 p.2).2 = p.2
    rw [applyClause_eq]
    exact h c (List.mem_cons_self _ _) p.2

theorem foldl_stepClause_eq_assignList (env : Scope F V)
    (cs : List (Clause σ F V)) (p : Record F V × σ) :
    List.foldl (stepClause env) p cs =
      (assignList p.1 (evalClauses env cs p.2).1,
       (evalClauses env cs p.2).2) := by
  induction cs generalizing p with
  | nil => rfl
  | cons c cs ih =>
    rw [List.foldl_cons]
    show List.foldl (stepClause env) (applyClause env c p.1 p.2) cs = _
    rw [applyClause_eq, ih]
    rfl

omit [DecidableEq F] in
theorem evalClauses_map_fst (env : Scope F V) (cs : List (Clause σ F V))
    (s : σ) :
    (evalClauses env cs s).1.map Prod.fst = cs.map clauseField := by
  induction cs generalizing s with
  | nil => rfl
  | cons c cs ih => simp [evalClauses, ih]

theorem assignList_notMem (v : Record F V) (ps : List (F × V)) (f : F)
    (h : f ∉ ps.map Prod.fst) : assignList v ps f = v f := by
  induction ps generalizing v with
  | nil => rfl
  | cons p ps ih =>
    simp only [List.map_cons, List.mem_cons, not_or] at h
    rw [assignList, ih _ h.2]
    exact Function.update_noteq h.1 _ _

theorem assignList_mem (v : Record F V) (ps : List (F × V))
    (hnd : (ps.map Prod.fst).Nodup) (p : F × V) (hp : p ∈ ps) :
    assignList v ps p.1 = p.2 := by
  induction ps generalizing v with
  | nil => cases hp
  | cons q ps ih =>
    rw [List.map_cons, List.nodup_cons] at hnd
    rcases List.mem_cons.1 hp with rfl | hp
    · rw [assignList, assignList_notMem _ _ _ hnd.1]
      exact Function.update_same _ _ _
    · exact ih _ hnd.2 hp

theorem assignList_perm {ps qs : List (F × V)} (h : ps.Perm qs) :
    (ps.map Prod.fst).Nodup → ∀ v : Record F V, assignList v ps = assignList v qs := by
  induction h with
  | nil => exact fun _ _ => rfl
  | cons x h ih =>
    intro hnd v
    rw [List.map_cons, List.nodup_cons] at hnd
    rw [assignList, assignList, ih hnd.2]
  | swap x y l =>
    intro hnd v
    rw [List.map_cons, List.map_cons, List.nodup_cons, List.nodup_cons] at hnd
    have hxy : y.1 ≠ x.1 := by
      intro e
      exact hnd.1 (e ▸ List.mem_cons_self _ _)
    rw [assignList, assignList, assignList, assignList,
      Function.update_comm hxy]
  | trans h1 h2 ih1 ih2 =>
    intro hnd v
    rw [ih1 hnd, ih2 (((h1.map Prod.fst).nodup_iff).1 hnd)]

theorem foldl_stepClause_pure (env : Scope F V) (cs : List (Clause σ F V))
    (p : Record F V × σ) (h : ∀ c ∈ cs, PureClause c) :
    List.foldl (stepClause env) p cs =
      (assignList p.1 (cs.map fun c => (clauseField c, (clauseEval env c p.2).1)),
       p.2) := by
  induction cs generalizing p with
  | nil => rfl
  | cons c cs ih =>
    rw [List.foldl_cons]
    show List.foldl (stepClause env) (applyClause env c p.1 p.2) cs = _
    rw [applyClause_eq, h c (List.mem_cons_self _ _) env p.2 p.2]
    rw [ih _ fun d hd => h d (List.mem_cons_of_mem _ hd)]
    rfl

theorem assignExpand_append_last (env : Scope F V) (base : BaseExpr σ F V)
    (cs1 cs2 : List (Clause σ F V)) (c : Clause σ F V) (s : σ)
    (h : clauseField c ∉ cs2.map clauseField) :
    (assignExpand env base (cs1 ++ c :: cs2) s).1 (clauseField c) =
      (clauseEval env c (assignExpand env base cs1 s).2).1 := by
  rw [assignExpand, List.foldl_append, List.foldl_cons,
    foldl_stepClause_fst _ _ _ _ h]
  show (applyClause env c _ _).1 (clauseField c) = _
  rw [applyClause_eq]
  exact Function.update_same _ _ _

end Lemmas

theorem foldl_instrClauses {F V : Type} [DecidableEq F] (env : Scope F V)
    (ps : List (F × V)) (k : Nat) (r : Record F V) (s : List Event) :
    List.foldl (stepClause env) (r, s) (instrClauses ps k) =
      (assignList r ps, s ++ (List.range' k ps.length).map Event.val) := by
  induction ps generalizing k r s with
  | nil => simp [instrClauses, assignList, List.range']
  | cons p ps ih =>
    rw [instrClauses, List.foldl_cons]
    show List.foldl (stepClause env)
        (Function.update r p.1 p.2, s ++ [Event.val k]) (instrClauses ps (k + 1)) = _
    rw [ih]
    simp [assignList, List.range'_succ]

/-- C1: for every base value of a record type and every non-empty,
duplicate-free clause list, the expansion evaluates to the base value with
the clause fields replaced by the evaluated values of their expressions and
all other fields unchanged; in particular, on the record with fields
`a = 0, b = None, c = None`, the clause list `a : 5, b : None` yields
`a = 5, b = None, c = None`. -/
theorem assign_field_override {σ F V : Type} [DecidableEq F]
    (env : Scope F V) (base : BaseExpr σ F V) (cs : List (Clause σ F V))
    (s : σ) (_hne : cs ≠ []) (hnd : (cs.map clauseField).Nodup) :
    ((∀ f, f ∉ cs.map clauseField →
        (assignExpand env base cs s).1 f = (base env s).1 f) ∧
      (∀ p ∈ (evalClauses env cs (base env s).2).1,
        (assignExpand env base cs s).1 p.1 = p.2)) ∧
    ((assignExpand exEnv exBase exClauses ()).1 Field.a = SVal.u32 5 ∧
     (assignExpand exEnv exBase exClauses ()).1 Field.b = SVal.optF32 none ∧
     (assignExpand exEnv exBase exClauses ()).1 Field.c = SVal.optU64 none) := by
  refine ⟨⟨?_, ?_⟩, by decide, by decide, by decide⟩
  · intro f hf
    rw [assignExpand, foldl_stepClause_eq_assignList]
    exact assignList_notMem _ _ _ (by rw [evalClauses_map_fst]; exact hf)
  · intro p hp
    rw [assignExpand, foldl_stepClause_eq_assignList]
    exact assignList_mem _ _ (by rw [evalClauses_map_fst]; exact hnd) p hp

theorem assign_field_override_witness :
    exClauses ≠ [] ∧ (exClauses.map clauseField).Nodup ∧
    (((∀ f, f ∉ exClauses.map clauseField →
        (assignExpand exEnv exBase exClauses ()).1 f = (exBase exEnv ()).1 f) ∧
      (∀ p ∈ (evalClauses exEnv exClauses (exBase exEnv ()).2).1,
        (assignExpand exEnv exBase exClauses ()).1 p.1 = p.2)) ∧
    ((assignExpand exEnv exBase exClauses ()).1 Field.a = SVal.u32 5 ∧
     (assignExpand exEnv exBase exClauses ()).1 Field.b = SVal.optF32 none ∧
     (assignExpand exEnv exBase exClauses ()).1 Field.c = SVal.optU64 none)) :=
  ⟨List.cons_ne_nil _ _, by decide,
    assign_field_override exEnv exBase exClauses () (List.cons_ne_nil _ _)
      (by decide)⟩

/-- C2: for every base expression with an observable side effect (a
construction counter bumped by one on each evaluation) and every non-empty
clause list whose value expressions leave the counter alone, the expansion
bumps the counter exactly once, regardless of how many clauses follow. -/
theorem assign_base_single_evaluation {F V : Type} [DecidableEq F]
    (env : Scope F V) (base : BaseExpr Nat F V) (cs : List (Clause Nat F V))
    (s0 : Nat) (_hne : cs ≠ [])
    (hbase : ∀ env1 s, (base env1 s).2 = s + 1)
    (hcs : ∀ c ∈ cs, ∀ s, (clauseEval env c s).2 = s) :
    (assignExpand env base cs s0).2 = s0 + 1 := by
  rw [assignExpand, foldl_stepClause_snd _ _ _ hcs, hbase]

theorem assign_base_single_evaluation_witness :
    countClauses ≠ [] ∧ (∀ env1 s, (countingBase env1 s).2 = s + 1) ∧
    (∀ c ∈ countClauses, ∀ s, (clauseEval someStructDefault c s).2 = s) ∧
    (assignExpand someStructDefault countingBase countClauses 0).2 = 0 + 1 := by
  refine ⟨List.cons_ne_nil _ _, fun _ _ => rfl, ?_, ?_⟩
  · intro c hc s
    simp only [countClauses, List.mem_singleton] at hc
    subst hc
    rfl
  · refine assign_base_single_evaluation someStructDefault countingBase
      countClauses 0 (List.cons_ne_nil _ _) (fun _ _ => rfl) ?_
    intro c hc s
    simp only [countClauses, List.mem_singleton] at hc
    subst hc
    rfl

/-- C3: a bare shorthand clause for a field behaves exactly like the full
clause whose value expression is the variable reference of the same name,
resolved in the caller scope; concretely, with the variable `a` holding `5`
in scope, the clause list `a` yields the same result as `a : 5`. -/
theorem assign_shorthand_equiv {σ F V : Type} [DecidableEq F]
    (env : Scope F V) (base : BaseExpr σ F V)
    (cs1 cs2 : List (Clause σ F V)) (f : F) (s : σ) :
    (assignExpand env base (cs1 ++ Clause.shorthand f :: cs2) s =
      assignExpand env base (cs1 ++ Clause.full f (varRef f) :: cs2) s) ∧
    (assignExpand env5 base5 [Clause.shorthand Field.a] () =
      assignExpand env5 base5 [Clause.full Field.a (constExpr 5)] ()) := by
  constructor
  · rw [assignExpand, assignExpand, List.foldl_append, List.foldl_append]
    rfl
  · rfl

/-- C4: field assignments happen in clause source order, so the field of any
clause whose field is not touched by a later clause holds that clause's
value, evaluated at the state reached after the base expression and all
earlier clauses; in particular, with a duplicated field the final result
reflects the rightmost value only. -/
theorem assign_last_write_wins {σ F V : Type} [DecidableEq F]
    (env : Scope F V) (base : BaseExpr σ F V)
    (cs1 cs2 : List (Clause σ F V)) (c : Clause σ F V) (s : σ)
    (h : clauseField c ∉ cs2.map clauseField) :
    (assignExpand env base (cs1 ++ c :: cs2) s).1 (clauseField c) =
      (clauseEval env c (assignExpand env base cs1 s).2).1 :=
  assignExpand_append_last env base cs1 cs2 c s h

theorem assign_last_write_wins_witness :
    clauseField clause7 ∉ (([] : List (Clause Unit Field SVal)).map clauseField) ∧
    (assignExpand exEnv exBase ([clause5] ++ clause7 :: []) ()).1
        (clauseField clause7) =
      (clauseEval exEnv clause7 (assignExpand exEnv exBase [clause5] ()).2).1 :=
  ⟨by simp, assign_last_write_wins exEnv exBase [clause5] [] clause7 ()
    (by simp)⟩

/-- C5: an invocation of the main shape with zero field clauses matches no
rule of the accepted grammar: the rewrite rule signals a shape mismatch and
produces no expansion. -/
theorem assign_zero_clauses_rejected {σ F V : Type} [DecidableEq F]
    (base : BaseExpr σ F V) :
    expand (Invocation.main base []) = none := rfl

/-- C6, counterexample: the internal single-clause helper shape is not
rejected — at this concrete helper-shaped invocation the rewrite rule
produces an expansion instead of signalling a shape mismatch. -/
theorem assign_helper_shape_accepted_cex :
    expand (Invocation.helperFull Field.a (constExpr (SVal.u32 5)) :
        Invocation Unit Field SVal) ≠ none := by
  intro h
  exact Option.noConfusion h

/-- C6, amended: an invocation presenting only the internal single-clause
helper shape is accepted by the rewrite rule (it matches the internal
rules) and expands to exactly one field-assignment statement on the named
local; it is not rejected as an invocation shape mismatch. -/
theorem assign_helper_shape_expands {σ F V : Type} [DecidableEq F]
    (f : F) (e : Expr σ F V) :
    expand (Invocation.helperFull f e) =
      some (Expansion.stmt fun env item s =>
        (Function.update item f (e env s).1, (e env s).2)) ∧
    expand (Invocation.helperShorthand f : Invocation σ F V) =
      some (Expansion.stmt fun env item s =>
        (Function.update item f (env f), s)) :=
  ⟨rfl, rfl⟩

/-- C7: invoking the rule with exactly one clause is a valid invocation, and
the produced value holds the clause's evaluated value at the clause's field
while every other field retains its value from the base. -/
theorem assign_single_clause {σ F V : Type} [DecidableEq F]
    (env : Scope F V) (base : BaseExpr σ F V) (c : Clause σ F V) (s : σ) :
    (expand (Invocation.main base [c])).isSome = true ∧
    (assignExpand env base [c] s).1 (clauseField c) =
      (clauseEval env c (base env s).2).1 ∧
    ∀ g, g ≠ clauseField c →
      (assignExpand env base [c] s).1 g = (base env s).1 g := by
  refine ⟨rfl, ?_, ?_⟩
  · show (applyClause env c (base env s).1 (base env s).2).1 (clauseField c) = _
    rw [applyClause_eq]
    exact Function.update_same _ _ _
  · intro g hg
    show (applyClause env c (base env s).1 (base env s).2).1 g = _
    rw [applyClause_eq]
    exact Function.update_noteq hg _ _

theorem assign_single_clause_witness :
    (expand (Invocation.main exBase [clause5])).isSome = true ∧
    (assignExpand exEnv exBase [clause5] ()).1 (clauseField clause5) =
      (clauseEval exEnv clause5 (exBase exEnv ()).2).1 ∧
    ∀ g, g ≠ clauseField clause5 →
      (assignExpand exEnv exBase [clause5] ()).1 g = (exBase exEnv ()).1 g :=
  assign_single_clause exEnv exBase clause5 ()

/-- C8, counterexample: two clauses on distinct fields whose value
expressions share a counter — a permutation of the clause list with
pairwise-disjoint fields that yields a different result value, refuting
unconditional order independence. -/
theorem assign_perm_order_dependent_cex :
    (effClauses1.map clauseField).Nodup ∧
    effClauses1.Perm effClauses2 ∧
    (assignExpand natScope natBase effClauses1 0).1 ≠
      (assignExpand natScope natBase effClauses2 0).1 := by
  refine ⟨by decide, List.Perm.swap _ _ _, ?_⟩
  intro h
  exact absurd (congrFun h Field.a) (by decide)

/-- C8, amended: for every base value and every clause list touching
pairwise-disjoint fields whose value expressions are pure (state-independent
value, no state effect — bare shorthand clauses and literal values are such),
permuting the clause order yields an identical result value and state. -/
theorem assign_perm_independent_pure {σ F V : Type} [DecidableEq F]
    (env : Scope F V) (base : BaseExpr σ F V)
    (cs cs2 : List (Clause σ F V)) (s : σ)
    (hperm : cs.Perm cs2) (hnd : (cs.map clauseField).Nodup)
    (hpure : ∀ c ∈ cs, PureClause c) :
    assignExpand env base cs s = assignExpand env base cs2 s := by
  rw [assignExpand, assignExpand, foldl_stepClause_pure _ _ _ hpure,
    foldl_stepClause_pure _ _ _ fun c hc => hpure c (hperm.mem_iff.2 hc)]
  have hkeys : ((cs.map fun c =>
      (clauseField c, (clauseEval env c (base env s).2).1)).map Prod.fst).Nodup := by
    rw [List.map_map]
    simpa [Function.comp] using hnd
  have hp : (cs.map fun c =>
      (clauseField c, (clauseEval env c (base env s).2).1)).Perm
      (cs2.map fun c => (clauseField c, (clauseEval env c (base env s).2).1)) :=
    hperm.map _
  rw [assignList_perm hp hkeys]

theorem assign_perm_independent_pure_witness :
    exClauses.Perm exClausesRev ∧ (exClauses.map clauseField).Nodup ∧
    (∀ c ∈ exClauses, PureClause c) ∧
    assignExpand exEnv exBase exClauses () =
      assignExpand exEnv exBase exClausesRev () := by
  have hpure : ∀ c ∈ exClauses, PureClause c := by
    intro c hc
    rcases List.mem_cons.1 hc with rfl | hc
    · exact fun env s1 s2 => rfl
    · rw [List.mem_singleton] at hc
      subst hc
      exact fun env s1 s2 => rfl
  exact ⟨List.Perm.swap _ _ _, by decide, hpure,
    assign_perm_independent_pure exEnv exBase exClauses exClausesRev ()
      (List.Perm.swap _ _ _) (by decide) hpure⟩

/-- C9: the local bound to the evaluated base inside the expansion is
hygienic — a value expression or shorthand clause referencing a caller-scope
variable named `item` observes the caller's binding of `item`, never the
expansion's internal mutable local, at every clause position. -/
theorem assign_hygienic_item {σ V : Type}
    (env : Scope String V) (base : BaseExpr σ String V)
    (cs1 cs2 : List (Clause σ String V)) (f : String) (s : σ)
    (h2 : f ∉ cs2.map clauseField) :
    (assignExpand env base (cs1 ++ Clause.full f (varRef "item") :: cs2) s).1 f =
      env "item" ∧
    ("item" ∉ cs2.map clauseField →
      (assignExpand env base (cs1 ++ Clause.shorthand "item" :: cs2) s).1 "item" =
        env "item") := by
  constructor
  · have h := assignExpand_append_last env base cs1 cs2
      (Clause.full f (varRef "item")) s h2
    simpa [clauseField, clauseEval, varRef] using h
  · intro hi
    have h := assignExpand_append_last env base cs1 cs2
      (Clause.shorthand "item") s hi
    simpa [clauseField, clauseEval] using h

theorem assign_hygienic_item_witness :
    ("a" : String) ∉ (([] : List (Clause Unit String Nat)).map clauseField) ∧
    ((assignExpand itemScope strBase
        ([] ++ Clause.full "a" (varRef "item") :: []) ()).1 "a" =
      itemScope "item" ∧
    ("item" ∉ (([] : List (Clause Unit String Nat)).map clauseField) →
      (assignExpand itemScope strBase
          ([] ++ Clause.shorthand "item" :: []) ()).1 "item" =
        itemScope "item")) :=
  ⟨by simp, assign_hygienic_item itemScope strBase [] [] "a" () (by simp)⟩

/-- C10: with the base expression and every clause's value expression
instrumented to record their evaluations, the expansion produces exactly one
base event followed by one event per clause in source order — each value
expression is evaluated exactly once, in clause order, after the single
evaluation of the base — and the result is the sequential update of the
base record by the clause values. -/
theorem assign_clause_effects_in_order {F V : Type} [DecidableEq F]
    (env : Scope F V) (r : Record F V) (ps : List (F × V))
    (s0 : List Event) :
    assignExpand env (instrBase r) (instrClauses ps 0) s0 =
      (assignList r ps,
       s0 ++ Event.base :: (List.range' 0 ps.length).map Event.val) := by
  rw [assignExpand]
  show List.foldl (stepClause env) (r, s0 ++ [Event.base])
    (instrClauses ps 0) = _
  rw [foldl_instrClauses]
  simp

end Assign
